import Mathlib

/-!
Verification of the libbtc command-line tool (`src/tools/bitcointool.c`).

Two pieces of logic from `main` are embedded shallowly:

1. The `hdderive` derivation-path range expander (bitcointool.c lines
   416-487): a left-to-right scan over the keypath string that recognizes
   at most one `[from-to]` / `(from-to)` marker and expands it into a list
   of concrete paths, falling back to the literal input otherwise.
   Strings are embedded as `List Char`; the scan state (`posanum`,
   `posbnum`, `from`) and every guard (`maxlen` cap of 1024, the 9-byte
   numeral buffers, the digit table) mirror the C locals.

2. The `sign` command orchestrator (bitcointool.c lines 488-580): the
   external library calls (`btc_tx_deserialize`, `btc_privkey_decode_wif`,
   `btc_tx_sighash`, `btc_tx_sign_input`, ...) are black boxes, modelled by
   an oracle structure; the orchestrator itself is embedded as a function
   producing the process exit code together with a trace of observable
   events (printed lines, library calls with the arguments the C code
   passes, and resource releases) in program order.
-/

set_option maxRecDepth 8192

/-! ## Part 1: the hdderive range expander -/

/-- Digit table of the scanner; mirrors `static char digits[] = "0123456789"`
(bitcointool.c line 424). -/
def digits : List Char := ['0', '1', '2', '3', '4', '5', '6', '7', '8', '9']

/-- Membership test in the digit table; mirrors `strchr(digits, keypath[i])`
(bitcointool.c lines 439 and 455). -/
def isDigitChar (c : Char) : Bool := digits.contains c

/-- Value of an all-digit character buffer read back as a decimal number;
mirrors `strtoull(buf, NULL, 10)` on the zero-initialised `char buf[9]`
(bitcointool.c lines 435-437 and 449-451).  An empty buffer reads as 0. -/
def numeralVal (cs : List Char) : Nat :=
  cs.foldl (fun a c => a * 10 + (c.toNat - 48)) 0

/-- Contiguous region `[a, b)` of a character list; mirrors
`memcpy(buf, &keypath[a], b - a)`. -/
def memRegion (l : List Char) (a b : Nat) : List Char := (l.drop a).take (b - a)

/-- Marker scan loop of the `hdderive` command (bitcointool.c lines 425-464).

The C code iterates `i` over `keypath`; here `rest` is the suffix of
`keypath` starting at position `i` (the top-level call passes `keypath`
itself with `i = 0`), and the numeral values are still read from the full
`keypath` by position, exactly as the two `memcpy` calls do.  `posanum`
and `posbnum` use `Option Nat` for the C sentinel `-1`; the initial value
of the C local `from` (uninitialised until the `-` branch assigns it) is
threaded as `fromN`.  A `none` result corresponds to `end == -1` after the
loop: no complete marker was found before the scan stopped (abort on a
non-digit, a numeral run of 9 or more characters, the `maxlen = 1024`
position cap, or exhaustion of the string). On success the result carries
`(posanum, end, from, to)`. -/
def scanLoop (keypath : List Char) :
    List Char → Nat → Option Nat → Option Nat → Nat → Option (Nat × Nat × Nat × Nat)
  | [], _, _, _, _ => none
  | c :: rest, i, posanum, posbnum, fromN =>
    if 1024 < i then none
    else
      match posanum, posbnum with
      | some pa, none =>
        if c = '-' then
          if 9 ≤ i - pa then none
          else
            scanLoop keypath rest (i + 1) (some pa) (some (i + 1))
              (numeralVal (memRegion keypath pa i))
        else if isDigitChar c then
          scanLoop keypath rest (i + 1) (some pa) none fromN
        else none
      | some pa, some pb =>
        if c = ']' ∨ c = ')' then
          if 9 ≤ i - pb then none
          else some (pa, i + 1, fromN, numeralVal (memRegion keypath pb i))
        else if isDigitChar c then
          scanLoop keypath rest (i + 1) (some pa) (some pb) fromN
        else none
      | none, _ =>
        if c = '[' ∨ c = '(' then
          scanLoop keypath rest (i + 1) (some (i + 1)) none fromN
        else
          scanLoop keypath rest (i + 1) none none fromN

/-- Marker scan of a keypath, started exactly as the C loop starts
(`i = 0`, `posanum = posbnum = -1`). -/
def scanMarker (keypath : List Char) : Option (Nat × Nat × Nat × Nat) :=
  scanLoop keypath keypath 0 none none 0

/-- Little-endian decimal digit characters of `n`, with explicit fuel
(the fuel `n` always suffices since a number has at most as many digits
as its value once positive). -/
def decRev : Nat → Nat → List Char
  | 0, _ => []
  | _ + 1, 0 => []
  | fuel + 1, n + 1 => Char.ofNat (48 + (n + 1) % 10) :: decRev fuel ((n + 1) / 10)

/-- Minimal decimal rendering of an index; mirrors
`sprintf(index, "%lld", i)` (bitcointool.c line 471). -/
def decChars (n : Nat) : List Char :=
  if n = 0 then ['0'] else (decRev n n).reverse

/-- Range expansion of the `hdderive` command (bitcointool.c lines 466-487):
the list of concrete keypaths handed to `hd_derive`.  When the scan found a
complete marker and `from <= to`, each index from `from` to `to` is rendered
in place of the marker between the verbatim prefix (characters before the
opening bracket, `memcpy(keypathnew, keypath, posanum-1)`) and suffix
(characters after the closing bracket, `&keypath[end]`); otherwise the
single literal keypath is used. -/
def hdderiveExpand (keypath : List Char) : List (List Char) :=
  match scanMarker keypath with
  | some (posanum, endPos, fromN, toN) =>
    if fromN ≤ toN then
      (List.range (toN - fromN + 1)).map fun k =>
        keypath.take (posanum - 1) ++ decChars (fromN + k) ++ keypath.drop endPos
    else [keypath]
  | none => [keypath]

/-! ## Part 2: the sign command orchestrator -/

/-- Observable events of one `sign` command run, in program order:
diagnostic prints, calls into the external library together with the
argument values the C code passes, and resource releases. -/
inductive Event where
  | callSighash (inputindex : Int) (sighashtype : Int) (amount : Nat)
  | printScript (scripthex : List Char)
  | printScriptType
  | printInputIndex (inputindex : Int)
  | printSighashType (sighashtype : Int)
  | printHash
  | callDecodeWif (chain : Nat) (pkey : List Char)
  | noKeyNotice
  | callSignInput (amount : Nat) (inputindex : Int) (sighashtype : Int)
  | signErrorNotice (reason : List Char)
  | printSigCompact
  | printSigDer
  | callSerialize
  | printSignedTx
  | freeTx
  | freeScript
  | errorPrint (msg : List Char)
  deriving DecidableEq

/-- Black-box behaviour of the external library during one run:
`deserialize` abstracts `utils_hex_to_bin` plus `btc_tx_deserialize`,
returning the input count `tx->vin->len` of the decoded transaction (or
`none` on failure); `decodeWif` abstracts `btc_privkey_decode_wif` against
the active chain; `signOk` and `signReason` abstract the
`btc_tx_sign_result` of `btc_tx_sign_input` and its rendering by
`btc_tx_sign_result_to_str`. -/
structure SignOracle where
  deserialize : List Char → Option Nat
  decodeWif : Nat → List Char → Bool
  signOk : Bool
  signReason : List Char

/-- Conversion applied by `(size_t)inputindex` (bitcointool.c line 509):
reduction of the signed index modulo 2^64. -/
def sizeTCast (i : Int) : Nat := (i % (2 ^ 64 : Int)).toNat

/-- Message of `showError("tx too large (max 100kb)\n")`. -/
def txTooLargeMsg : List Char := "tx too large (max 100kb)\n".toList

/-- Message of `showError("Invalid tx hex")`. -/
def invalidTxMsg : List Char := "Invalid tx hex".toList

/-- Message of `showError("Inputindex out of range")`. -/
def inputIndexMsg : List Char := "Inputindex out of range".toList

/-- Message of `showError("Invalid wif privkey\n")`. -/
def invalidWifMsg : List Char := "Invalid wif privkey\n".toList

/-- Diagnostic block of the sign command (bitcointool.c lines 520-532):
the `btc_tx_sighash` call — note the literal `0` amount and base signature
version the C code passes — followed by the five printed lines (script hex,
classified script type, input index, sighash type, reversed-hex hash). -/
def signDiag (scripthex : List Char) (inputindex sighashtype : Int) : List Event :=
  [Event.callSighash inputindex sighashtype 0,
   Event.printScript scripthex,
   Event.printScriptType,
   Event.printInputIndex inputindex,
   Event.printSighashType sighashtype,
   Event.printHash]

/-- Sign command orchestrator (bitcointool.c lines 488-580), as exit code
plus event trace.  Control flow mirrors the C exactly: the 100kb hex cap,
deserialization, the `(size_t)inputindex >= tx->vin->len` check (each
failure freeing the transaction and printing `Error: ...` with exit
code 1), then the diagnostic block, then WIF decoding of the supplied key;
on decode failure a key longer than 50 characters is a hard error (free
transaction and script, exit 1) while a shorter one prints the no-signing
notice and completes successfully; with a decoded key `btc_tx_sign_input`
is called with the request amount, a non-OK result is only reported, and
the signature and re-serialized transaction are printed before the normal
exit 0. -/
def signCmd (O : SignOracle) (chain : Nat) (txhex scripthex : List Char)
    (inputindex sighashtype : Int) (amount : Nat) (pkey : List Char) :
    Nat × List Event :=
  if 1024 * 100 < txhex.length then (1, [Event.errorPrint txTooLargeMsg])
  else
    match O.deserialize txhex with
    | none => (1, [Event.freeTx, Event.errorPrint invalidTxMsg])
    | some vinLen =>
      if vinLen ≤ sizeTCast inputindex then
        (1, [Event.freeTx, Event.errorPrint inputIndexMsg])
      else
        if O.decodeWif chain pkey then
          (0, signDiag scripthex inputindex sighashtype ++
            [Event.callDecodeWif chain pkey,
             Event.callSignInput amount inputindex sighashtype,
             Event.freeScript] ++
            (if O.signOk then [] else [Event.signErrorNotice O.signReason]) ++
            [Event.printSigCompact, Event.printSigDer, Event.callSerialize,
             Event.printSignedTx, Event.freeTx])
        else if 50 < pkey.length then
          (1, signDiag scripthex inputindex sighashtype ++
            [Event.callDecodeWif chain pkey, Event.freeTx, Event.freeScript,
             Event.errorPrint invalidWifMsg])
        else
          (0, signDiag scripthex inputindex sighashtype ++
            [Event.callDecodeWif chain pkey, Event.noKeyNotice, Event.freeTx])

/-! ## Lemmas about the marker scanner -/

/-- Digit characters are distinct from every structural character the
scanner tests for. -/
theorem isDigitChar_ne {c : Char} (h : isDigitChar c = true) :
    c ≠ '-' ∧ c ≠ ']' ∧ c ≠ ')' ∧ c ≠ '[' ∧ c ≠ '(' := by
  have hm : c ∈ digits := by simpa [isDigitChar] using h
  simp only [digits, List.mem_cons, List.not_mem_nil, or_false] at hm
  rcases hm with rfl | rfl | rfl | rfl | rfl | rfl | rfl | rfl | rfl | rfl <;>
    exact ⟨by decide, by decide, by decide, by decide, by decide⟩

/-- Once the position passes the `maxlen = 1024` cap the scan yields no
marker, whatever its state. -/
theorem scanLoop_cap (kp rest : List Char) (i : Nat) (pa pb : Option Nat)
    (fr : Nat) (h : 1024 < i) : scanLoop kp rest i pa pb fr = none := by
  cases rest with
  | nil => rfl
  | cons c rest => simp [scanLoop, h]

/-- A bracket-free segment is skipped by the scanner in its initial state,
only advancing the position. -/
theorem scanLoop_skip_start (kp : List Char) (l rest : List Char) (i fr : Nat)
    (h : ∀ c ∈ l, ¬(c = '[' ∨ c = '(')) :
    scanLoop kp (l ++ rest) i none none fr =
      scanLoop kp rest (i + l.length) none none fr := by
  induction l generalizing i with
  | nil => simp
  | cons c l ih =>
    by_cases hi : 1024 < i
    · rw [scanLoop_cap _ _ _ _ _ _ hi, scanLoop_cap]
      omega
    · have hc := h c (List.mem_cons_self c l)
      simp only [List.cons_append, scanLoop, if_neg hi, if_neg hc, List.append_eq]
      rw [ih _ (fun c hc => h c (List.mem_cons_of_mem _ hc))]
      have : i + 1 + l.length = i + (c :: l).length := by
        simp only [List.length_cons]
        omega
      rw [this]

/-- A digit run is consumed by the scanner while it is accumulating the
`from` numeral, only advancing the position. -/
theorem scanLoop_skip_fromRun (kp : List Char) (l rest : List Char)
    (i a fr : Nat) (h : ∀ c ∈ l, isDigitChar c = true) :
    scanLoop kp (l ++ rest) i (some a) none fr =
      scanLoop kp rest (i + l.length) (some a) none fr := by
  induction l generalizing i with
  | nil => simp
  | cons c l ih =>
    by_cases hi : 1024 < i
    · rw [scanLoop_cap _ _ _ _ _ _ hi, scanLoop_cap]
      omega
    · have hd := h c (List.mem_cons_self c l)
      obtain ⟨h1, -, -, -, -⟩ := isDigitChar_ne hd
      simp only [List.cons_append, scanLoop, if_neg hi, if_neg h1, hd, if_true, List.append_eq]
      rw [ih _ (fun c hc => h c (List.mem_cons_of_mem _ hc))]
      have : i + 1 + l.length = i + (c :: l).length := by
        simp only [List.length_cons]
        omega
      rw [this]

/-- A digit run is consumed by the scanner while it is accumulating the
`to` numeral, only advancing the position. -/
theorem scanLoop_skip_toRun (kp : List Char) (l rest : List Char)
    (i a b fr : Nat) (h : ∀ c ∈ l, isDigitChar c = true) :
    scanLoop kp (l ++ rest) i (some a) (some b) fr =
      scanLoop kp rest (i + l.length) (some a) (some b) fr := by
  induction l generalizing i with
  | nil => simp
  | cons c l ih =>
    by_cases hi : 1024 < i
    · rw [scanLoop_cap _ _ _ _ _ _ hi, scanLoop_cap]
      omega
    · have hd := h c (List.mem_cons_self c l)
      obtain ⟨-, h2, h3, -, -⟩ := isDigitChar_ne hd
      have hcl : ¬(c = ']' ∨ c = ')') := by
        rintro (rfl | rfl)
        · exact h2 rfl
        · exact h3 rfl
      simp only [List.cons_append, scanLoop, if_neg hi, if_neg hcl, hd, if_true, List.append_eq]
      rw [ih _ (fun c hc => h c (List.mem_cons_of_mem _ hc))]
      have : i + 1 + l.length = i + (c :: l).length := by
        simp only [List.length_cons]
        omega
      rw [this]

/-- Marker recognition: a keypath consisting of a bracket-free region, an
opening bracket (either kind), a digit run of at most 8 characters, `-`,
a second digit run of at most 8 characters, a closing bracket (either
kind), and an arbitrary tail is recognized by the scanner, provided the
closing bracket lies within the position cap.  The result records the
position after the opening bracket, the position after the closing
bracket, and the two numeral values. -/
theorem scanMarker_marker (pre fds tds suf : List Char) (op cl : Char)
    (hop : op = '[' ∨ op = '(') (hcl : cl = ']' ∨ cl = ')')
    (hpre : ∀ c ∈ pre, ¬(c = '[' ∨ c = '('))
    (hf : ∀ c ∈ fds, isDigitChar c = true)
    (ht : ∀ c ∈ tds, isDigitChar c = true)
    (hfl : fds.length ≤ 8) (htl : tds.length ≤ 8)
    (hcap : pre.length + fds.length + tds.length + 2 ≤ 1024) :
    scanMarker (pre ++ (op :: (fds ++ ('-' :: (tds ++ (cl :: suf)))))) =
      some (pre.length + 1, pre.length + fds.length + tds.length + 3,
        numeralVal fds, numeralVal tds) := by
  have hcap1 : ¬ 1024 < pre.length := by omega
  have hcap2 : ¬ 1024 < pre.length + 1 + fds.length := by omega
  have hcap3 : ¬ 1024 < pre.length + 1 + fds.length + 1 + tds.length := by omega
  have hfl' : ¬ 9 ≤ pre.length + 1 + fds.length - (pre.length + 1) := by omega
  have htl' : ¬ 9 ≤ pre.length + 1 + fds.length + 1 + tds.length -
      (pre.length + 1 + fds.length + 1) := by omega
  have hregf : memRegion (pre ++ (op :: (fds ++ ('-' :: (tds ++ (cl :: suf))))))
      (pre.length + 1) (pre.length + 1 + fds.length) = fds := by
    unfold memRegion
    have h1 : pre ++ (op :: (fds ++ ('-' :: (tds ++ (cl :: suf))))) =
        (pre ++ [op]) ++ (fds ++ ('-' :: (tds ++ (cl :: suf)))) := by simp
    rw [h1, List.drop_left' (by simp)]
    have h2 : pre.length + 1 + fds.length - (pre.length + 1) = fds.length := by
      omega
    rw [h2]
    exact List.take_left fds _
  have hregt : memRegion (pre ++ (op :: (fds ++ ('-' :: (tds ++ (cl :: suf))))))
      (pre.length + 1 + fds.length + 1)
      (pre.length + 1 + fds.length + 1 + tds.length) = tds := by
    unfold memRegion
    have h1 : pre ++ (op :: (fds ++ ('-' :: (tds ++ (cl :: suf))))) =
        (pre ++ (op :: (fds ++ ['-']))) ++ (tds ++ (cl :: suf)) := by simp
    rw [h1, List.drop_left' (by simp; omega)]
    have h2 : pre.length + 1 + fds.length + 1 + tds.length -
        (pre.length + 1 + fds.length + 1) = tds.length := by omega
    rw [h2]
    exact List.take_left tds _
  have hopc : (op = '[' ∨ op = '(') = True := by simp [hop]
  have hclc : (cl = ']' ∨ cl = ')') = True := by simp [hcl]
  unfold scanMarker
  rw [scanLoop_skip_start _ pre (op :: (fds ++ ('-' :: (tds ++ (cl :: suf)))))
    0 0 hpre]
  rw [Nat.zero_add]
  simp only [scanLoop, if_neg hcap1, hopc, if_true]
  rw [scanLoop_skip_fromRun _ fds ('-' :: (tds ++ (cl :: suf)))
    (pre.length + 1) (pre.length + 1) 0 hf]
  simp only [scanLoop, if_neg hcap2, if_pos rfl, if_neg hfl', hregf,
    List.append_eq]
  rw [scanLoop_skip_toRun _ tds (cl :: suf) (pre.length + 1 + fds.length + 1)
    (pre.length + 1) (pre.length + 1 + fds.length + 1) (numeralVal fds) ht]
  simp only [scanLoop, if_neg hcap3, hclc, if_true, if_neg htl', hregt]
  have h3 : pre.length + 1 + fds.length + 1 + tds.length + 1 =
      pre.length + fds.length + tds.length + 3 := by omega
  rw [h3]

/-- Expansion of a recognized marker: with the marker of
`scanMarker_marker` recognized, the expander output is the ascending range
substitution between the verbatim bracket-free prefix and the verbatim
tail when `from <= to`, and the literal input otherwise. -/
theorem hdderiveExpand_marker (pre fds tds suf : List Char) (op cl : Char)
    (hop : op = '[' ∨ op = '(') (hcl : cl = ']' ∨ cl = ')')
    (hpre : ∀ c ∈ pre, ¬(c = '[' ∨ c = '('))
    (hf : ∀ c ∈ fds, isDigitChar c = true)
    (ht : ∀ c ∈ tds, isDigitChar c = true)
    (hfl : fds.length ≤ 8) (htl : tds.length ≤ 8)
    (hcap : pre.length + fds.length + tds.length + 2 ≤ 1024) :
    hdderiveExpand (pre ++ (op :: (fds ++ ('-' :: (tds ++ (cl :: suf)))))) =
      if numeralVal fds ≤ numeralVal tds then
        (List.range (numeralVal tds - numeralVal fds + 1)).map
          (fun k => pre ++ decChars (numeralVal fds + k) ++ suf)
      else [pre ++ (op :: (fds ++ ('-' :: (tds ++ (cl :: suf)))))] := by
  have htake : (pre ++ (op :: (fds ++ ('-' :: (tds ++ (cl :: suf)))))).take
      (pre.length + 1 - 1) = pre := by
    have h : pre.length + 1 - 1 = pre.length := by omega
    rw [h]
    exact List.take_left pre _
  have hdrop : (pre ++ (op :: (fds ++ ('-' :: (tds ++ (cl :: suf)))))).drop
      (pre.length + fds.length + tds.length + 3) = suf := by
    have h1 : pre ++ (op :: (fds ++ ('-' :: (tds ++ (cl :: suf))))) =
        (pre ++ (op :: (fds ++ ('-' :: (tds ++ [cl]))))) ++ suf := by simp
    rw [h1, List.drop_left' (by simp; omega)]
  rw [hdderiveExpand,
    scanMarker_marker pre fds tds suf op cl hop hcl hpre hf ht hfl htl hcap]
  simp only [htake, hdrop]

/-! ## Lemmas about the decimal rendering -/

/-- Appending one digit character multiplies the accumulated value by ten
and adds the digit. -/
theorem numeralVal_append (xs : List Char) (c : Char) :
    numeralVal (xs ++ [c]) = numeralVal xs * 10 + (c.toNat - 48) := by
  simp [numeralVal, List.foldl_append]

/-- Code point of a digit character built from a digit value. -/
theorem char_toNat_digit (d : Nat) (h : d < 10) :
    (Char.ofNat (48 + d)).toNat = 48 + d := by
  interval_cases d <;> decide

/-- Reading the rendered digits back yields the rendered number, for any
sufficient fuel. -/
theorem decRev_val : ∀ n fuel, n ≤ fuel →
    numeralVal (decRev fuel n).reverse = n := by
  intro n
  induction n using Nat.strong_induction_on with
  | _ n ih =>
    intro fuel hf
    match n, fuel with
    | 0, 0 => simp [decRev, numeralVal]
    | 0, f + 1 => simp [decRev, numeralVal]
    | m + 1, f + 1 =>
      have hq : (m + 1) / 10 < m + 1 := Nat.div_lt_self (Nat.succ_pos m) (by norm_num)
      have hqf : (m + 1) / 10 ≤ f := by omega
      rw [decRev, List.reverse_cons, numeralVal_append, ih _ hq _ hqf,
        char_toNat_digit _ (Nat.mod_lt _ (by norm_num))]
      omega

/-- The most significant rendered digit of a positive number is not the
character zero. -/
theorem decRev_getLast_ne_zero : ∀ n fuel, 0 < n → n ≤ fuel →
    (decRev fuel n).getLast? ≠ some '0' := by
  intro n
  induction n using Nat.strong_induction_on with
  | _ n ih =>
    intro fuel hn hf
    match n, fuel with
    | m + 1, f + 1 =>
      rw [decRev]
      by_cases hq : (m + 1) / 10 = 0
      · have hnil : decRev f ((m + 1) / 10) = [] := by
          rw [hq]
          cases f <;> rfl
        rw [hnil]
        intro hEq
        simp only [List.getLast?_singleton, Option.some.injEq] at hEq
        have h10 : (m + 1) % 10 < 10 := Nat.mod_lt _ (by norm_num)
        have := congrArg Char.toNat hEq
        rw [char_toNat_digit _ h10] at this
        have hz : '0'.toNat = 48 := by decide
        rw [hz] at this
        omega
      · have hpos : 0 < (m + 1) / 10 := Nat.pos_of_ne_zero hq
        have hqf : (m + 1) / 10 ≤ f := by omega
        have hne : decRev f ((m + 1) / 10) ≠ [] := by
          match f, hv : (m + 1) / 10 with
          | 0, _ => omega
          | f' + 1, 0 => omega
          | f' + 1, v + 1 => simp [decRev]
        obtain ⟨x, xs, hx⟩ := List.exists_cons_of_ne_nil hne
        rw [hx, List.getLast?_cons_cons]
        rw [← hx]
        exact ih _ (Nat.div_lt_self (by omega) (by norm_num)) _ hpos hqf

/-- Reading the decimal rendering back yields the original number: the
rendering is faithful. -/
theorem decChars_val (n : Nat) : numeralVal (decChars n) = n := by
  unfold decChars
  by_cases h : n = 0
  · subst h
    simp [numeralVal]
  · rw [if_neg h]
    exact decRev_val n n le_rfl

/-- The decimal rendering of a positive number has no leading zero. -/
theorem decChars_head_ne_zero {n : Nat} (hn : n ≠ 0) :
    (decChars n).head? ≠ some '0' := by
  unfold decChars
  rw [if_neg hn, List.head?_reverse]
  exact decRev_getLast_ne_zero n n (Nat.pos_of_ne_zero hn) le_rfl

/-! ## Lemmas about the sign orchestrator -/

/-- Shape of a sign run that passes the transaction size check,
deserialization, and the input index check: the diagnostic block runs,
the key is decoded, and the run continues into one of the three key
branches. -/
theorem signCmd_after_index (O : SignOracle) (chain : Nat)
    (txhex scripthex pkey : List Char) (ii st : Int) (amount vinLen : Nat)
    (h1 : txhex.length ≤ 1024 * 100)
    (h2 : O.deserialize txhex = some vinLen)
    (h3 : sizeTCast ii < vinLen) :
    signCmd O chain txhex scripthex ii st amount pkey =
      (if O.decodeWif chain pkey then (0 : Nat)
       else if 50 < pkey.length then 1 else 0,
       signDiag scripthex ii st ++ Event.callDecodeWif chain pkey ::
        (if O.decodeWif chain pkey then
          [Event.callSignInput amount ii st, Event.freeScript] ++
            (if O.signOk then [] else [Event.signErrorNotice O.signReason]) ++
            [Event.printSigCompact, Event.printSigDer, Event.callSerialize,
             Event.printSignedTx, Event.freeTx]
         else if 50 < pkey.length then
          [Event.freeTx, Event.freeScript, Event.errorPrint invalidWifMsg]
         else [Event.noKeyNotice, Event.freeTx])) := by
  have h1' : ¬ 1024 * 100 < txhex.length := by omega
  have h3' : ¬ vinLen ≤ sizeTCast ii := by omega
  rw [signCmd, h2]
  simp only [if_neg h1', if_neg h3']
  by_cases hd : O.decodeWif chain pkey <;>
    by_cases hs : O.signOk <;>
    by_cases hl : 50 < pkey.length <;>
    simp [hd, hs, hl]

/-! ## Claim C1 -/

/-- C1 counterexample: a path expression carrying a perfectly valid
marker `[1-2]` (numerals of one digit, from <= to) whose marker lies
beyond scan position 1024 is NOT expanded: the output is the single
literal input, not the two paths the claim requires. -/
theorem hdderive_range_expansion_cap_cex :
    hdderiveExpand (List.replicate 1025 'm' ++ "[1-2]".toList) =
      [List.replicate 1025 'm' ++ "[1-2]".toList] ∧
    (hdderiveExpand (List.replicate 1025 'm' ++ "[1-2]".toList)).length = 1 := by
  have hm : ∀ c ∈ List.replicate 1025 'm', ¬(c = '[' ∨ c = '(') := by
    intro c hc
    rw [List.eq_of_mem_replicate hc]
    decide
  have hscan : scanMarker (List.replicate 1025 'm' ++ "[1-2]".toList) = none := by
    unfold scanMarker
    rw [scanLoop_skip_start _ _ _ 0 0 hm]
    rw [Nat.zero_add, List.length_replicate]
    exact scanLoop_cap _ _ _ _ _ _ (by norm_num)
  refine ⟨?_, ?_⟩ <;> rw [hdderiveExpand, hscan]
  rfl

/-- C1 (amended): for every path expression made of a bracket-free prefix,
a valid range marker whose numerals have at most 8 digits and with
from <= to, and a verbatim suffix, PROVIDED the marker closes within the
first 1025 characters (the scanner's position cap of 1024), the expander
produces exactly to - from + 1 concrete paths, in ascending index order,
each equal to the prefix, the index rendered as a minimal decimal string
(faithful rendering, no leading zeros), and the suffix. -/
theorem hdderive_range_expansion (pre fds tds suf : List Char) (op cl : Char)
    (hop : op = '[' ∨ op = '(') (hcl : cl = ']' ∨ cl = ')')
    (hpre : ∀ c ∈ pre, ¬(c = '[' ∨ c = '('))
    (hf : ∀ c ∈ fds, isDigitChar c = true)
    (ht : ∀ c ∈ tds, isDigitChar c = true)
    (hfl : fds.length ≤ 8) (htl : tds.length ≤ 8)
    (hcap : pre.length + fds.length + tds.length + 2 ≤ 1024)
    (hle : numeralVal fds ≤ numeralVal tds) :
    hdderiveExpand (pre ++ (op :: (fds ++ ('-' :: (tds ++ (cl :: suf)))))) =
      (List.range (numeralVal tds - numeralVal fds + 1)).map
        (fun k => pre ++ decChars (numeralVal fds + k) ++ suf) ∧
    (hdderiveExpand (pre ++ (op :: (fds ++ ('-' :: (tds ++ (cl :: suf))))))).length =
      numeralVal tds - numeralVal fds + 1 ∧
    ∀ k, numeralVal (decChars (numeralVal fds + k)) = numeralVal fds + k ∧
      (numeralVal fds + k ≠ 0 →
        (decChars (numeralVal fds + k)).head? ≠ some '0') := by
  have hmain := hdderiveExpand_marker pre fds tds suf op cl hop hcl hpre hf ht
    hfl htl hcap
  rw [if_pos hle] at hmain
  refine ⟨hmain, ?_, ?_⟩
  · rw [hmain]
    simp
  · intro k
    exact ⟨decChars_val _, fun h => decChars_head_ne_zero h⟩

/-- C1 witness: the marker `[2-3]` in `m/0/[2-3]/5` yields exactly
3 - 2 + 1 = 2 paths. -/
theorem hdderive_range_expansion_witness :
    (hdderiveExpand ("m/0/".toList ++
      ('[' :: (['2'] ++ ('-' :: (['3'] ++ (']' :: "/5".toList))))))).length =
      numeralVal ['3'] - numeralVal ['2'] + 1 :=
  (hdderive_range_expansion "m/0/".toList ['2'] ['3'] "/5".toList '[' ']'
    (by decide) (by decide) (by decide) (by decide) (by decide) (by decide)
    (by decide) (by decide) (by decide)).2.1

/-! ## Claim C4 -/

/-- C4: whenever the scan finds no complete marker (no opening bracket, a
non-digit inside a numeral run, no closing bracket or dash before the
scan stops, a numeral of more than 8 digits) or finds one with from > to,
the expander output is exactly the single unmodified input expression;
the expander is total, so no error is raised. -/
theorem hdderive_literal_fallback (keypath : List Char)
    (h : scanMarker keypath = none ∨
      ∃ pa e f t, scanMarker keypath = some (pa, e, f, t) ∧ t < f) :
    hdderiveExpand keypath = [keypath] := by
  rw [hdderiveExpand]
  rcases h with h | ⟨pa, e, f, t, h, hlt⟩
  · rw [h]
  · rw [h]
    have hnle : ¬ f ≤ t := by omega
    simp [hnle]

/-- C4 witness: `m/[3-1]/0` has a well-formed marker with from = 3 > 1 = to
and falls back to the literal input. -/
theorem hdderive_literal_fallback_witness :
    hdderiveExpand ("m/[3-1]/0".toList) = ["m/[3-1]/0".toList] :=
  hdderive_literal_fallback _ (Or.inr ⟨3, 7, 3, 1, by decide, by decide⟩)

/-! ## Claim C8 -/

/-- C8 counterexample: a candidate marker opened with `[` and closed with
the non-matching `)` IS expanded (`m/[0-1)` yields `m/0`, `m/1`), so
marker recognition does not require the closing bracket to match the
opening one. -/
theorem hdderive_bracket_matching_cex :
    hdderiveExpand ("m/[0-1)".toList) = ["m/0".toList, "m/1".toList] ∧
    hdderiveExpand ("m/[0-1)".toList) ≠ ["m/[0-1)".toList] := by
  constructor <;> decide

/-- C8 (amended): a range marker is recognized when delimited by an
opening bracket (`[` or `(`) and ANY closing bracket (`]` or `)`);
matching of the bracket kinds is not required. -/
theorem hdderive_bracket_any_closer (pre fds tds suf : List Char)
    (op cl : Char)
    (hop : op = '[' ∨ op = '(') (hcl : cl = ']' ∨ cl = ')')
    (hpre : ∀ c ∈ pre, ¬(c = '[' ∨ c = '('))
    (hf : ∀ c ∈ fds, isDigitChar c = true)
    (ht : ∀ c ∈ tds, isDigitChar c = true)
    (hfl : fds.length ≤ 8) (htl : tds.length ≤ 8)
    (hcap : pre.length + fds.length + tds.length + 2 ≤ 1024) :
    scanMarker (pre ++ (op :: (fds ++ ('-' :: (tds ++ (cl :: suf)))))) =
      some (pre.length + 1, pre.length + fds.length + tds.length + 3,
        numeralVal fds, numeralVal tds) :=
  scanMarker_marker pre fds tds suf op cl hop hcl hpre hf ht hfl htl hcap

/-- C8 witness: the mismatched pair `[` ... `)` is recognized. -/
theorem hdderive_bracket_any_closer_witness :
    scanMarker ("m/".toList ++ ('[' :: (['0'] ++ ('-' :: (['1'] ++
      (')' :: ([] : List Char))))))) = some (3, 7, numeralVal ['0'], numeralVal ['1']) := by
  have h := hdderive_bracket_any_closer "m/".toList ['0'] ['1'] [] '[' ')'
    (by decide) (by decide) (by decide) (by decide) (by decide) (by decide)
    (by decide) (by decide)
  simpa using h

/-! ## Claim C9 -/

/-- C9: an empty numeral inside a marker reads as the number 0 (the C code
runs `strtoull` on an untouched zero-filled buffer): with an empty `from`
numeral the marker expands from index 0 up to `to`; with an empty `to`
numeral the marker expands (to the single index 0) exactly when `from`
is 0, and otherwise falls back to the literal input. -/
theorem hdderive_empty_numeral (pre fds tds suf : List Char) (op cl : Char)
    (hop : op = '[' ∨ op = '(') (hcl : cl = ']' ∨ cl = ')')
    (hpre : ∀ c ∈ pre, ¬(c = '[' ∨ c = '('))
    (hf : ∀ c ∈ fds, isDigitChar c = true)
    (ht : ∀ c ∈ tds, isDigitChar c = true)
    (hfl : fds.length ≤ 8) (htl : tds.length ≤ 8)
    (hcap : pre.length + fds.length + tds.length + 2 ≤ 1024) :
    hdderiveExpand (pre ++ (op :: ('-' :: (tds ++ (cl :: suf))))) =
      (List.range (numeralVal tds + 1)).map
        (fun k => pre ++ decChars k ++ suf) ∧
    hdderiveExpand (pre ++ (op :: (fds ++ ('-' :: (cl :: suf))))) =
      (if numeralVal fds = 0 then [pre ++ decChars 0 ++ suf]
       else [pre ++ (op :: (fds ++ ('-' :: (cl :: suf))))]) := by
  constructor
  · have ha := hdderiveExpand_marker pre [] tds suf op cl hop hcl hpre
      (by simp) ht (by simp) htl (by simpa using by omega)
    have h0 : numeralVal ([] : List Char) = 0 := rfl
    rw [h0, if_pos (Nat.zero_le _)] at ha
    simpa using ha
  · have hb := hdderiveExpand_marker pre fds [] suf op cl hop hcl hpre hf
      (by simp) hfl (by simp) (by simpa using by omega)
    have h0 : numeralVal ([] : List Char) = 0 := rfl
    rw [h0] at hb
    by_cases hF : numeralVal fds = 0
    · rw [if_pos hF]
      rw [hF, if_pos le_rfl] at hb
      simpa using hb
    · rw [if_neg hF]
      rw [if_neg (by omega)] at hb
      simpa using hb

/-- C9 witness: `m/[-5]/0` expands to indices 0 through 5, and `m/[3-]/0`
falls back to the literal input. -/
theorem hdderive_empty_numeral_witness :
    hdderiveExpand ("m/".toList ++ ('[' :: ('-' :: (['5'] ++
        (']' :: "/0".toList))))) =
      (List.range (numeralVal ['5'] + 1)).map
        (fun k => "m/".toList ++ decChars k ++ "/0".toList) ∧
    hdderiveExpand ("m/".toList ++ ('[' :: (['3'] ++ ('-' :: (']' ::
        "/0".toList))))) =
      ["m/".toList ++ ('[' :: (['3'] ++ ('-' :: (']' :: "/0".toList))))] := by
  have h := hdderive_empty_numeral "m/".toList ['3'] ['5'] "/0".toList '[' ']'
    (by decide) (by decide) (by decide) (by decide) (by decide) (by decide)
    (by decide) (by decide)
  refine ⟨h.1, ?_⟩
  have hb := h.2
  rw [if_neg (by decide)] at hb
  exact hb

/-! ## Claim C6 -/

/-- C6: in every sign run that passes the precondition checks (and hence
reaches the hash computation), the five diagnostic lines are printed
immediately after the hash call and before the key decoding; the trace
begins with this block whatever happens downstream, so key evaluation
never precedes the diagnostics. -/
theorem sign_diagnostics_before_key (O : SignOracle) (chain : Nat)
    (txhex scripthex pkey : List Char) (ii st : Int) (amount vinLen : Nat)
    (h1 : txhex.length ≤ 1024 * 100)
    (h2 : O.deserialize txhex = some vinLen)
    (h3 : sizeTCast ii < vinLen) :
    ∃ rest,
      (signCmd O chain txhex scripthex ii st amount pkey).2 =
        Event.callSighash ii st 0 :: Event.printScript scripthex ::
        Event.printScriptType :: Event.printInputIndex ii ::
        Event.printSighashType st :: Event.printHash ::
        Event.callDecodeWif chain pkey :: rest := by
  rw [signCmd_after_index O chain txhex scripthex pkey ii st amount vinLen
    h1 h2 h3]
  exact ⟨_, rfl⟩

/-- C6 witness. -/
theorem sign_diagnostics_before_key_witness :
    ∃ rest,
      (signCmd ⟨fun _ => some 1, fun _ _ => false, true, []⟩ 0 [] [] 0 1 0 []).2 =
        Event.callSighash 0 1 0 :: Event.printScript [] ::
        Event.printScriptType :: Event.printInputIndex 0 ::
        Event.printSighashType 1 :: Event.printHash ::
        Event.callDecodeWif 0 [] :: rest :=
  sign_diagnostics_before_key ⟨fun _ => some 1, fun _ _ => false, true, []⟩
    0 [] [] [] 0 1 0 1 (by decide) rfl (by decide)

/-! ## Claim C5 -/

/-- C5: with a deserialized transaction of `vinLen` inputs (and the input
index within the range of the C `int` type, the input count bounded as any
transaction under the 100kb cap forces), every index in `[0, vinLen)`
passes the check and the run proceeds directly to the hash computation
with no out-of-range error, while every negative index (cast to `size_t`)
and every index `>= vinLen` stops with exit code 1 and a trace containing
only the transaction release and the out-of-range error: no hash or
signature output is produced. -/
theorem sign_input_index_validation (O : SignOracle) (chain : Nat)
    (txhex scripthex pkey : List Char) (ii st : Int) (amount vinLen : Nat)
    (h1 : txhex.length ≤ 1024 * 100)
    (h2 : O.deserialize txhex = some vinLen)
    (hN : vinLen ≤ 2 ^ 32) (hlo : -(2 ^ 31) ≤ ii) (hhi : ii < 2 ^ 31) :
    (0 ≤ ii → ii < (vinLen : Int) →
      (∃ rest, (signCmd O chain txhex scripthex ii st amount pkey).2 =
        Event.callSighash ii st 0 :: rest) ∧
      Event.errorPrint inputIndexMsg ∉
        (signCmd O chain txhex scripthex ii st amount pkey).2) ∧
    ((ii < 0 ∨ (vinLen : Int) ≤ ii) →
      signCmd O chain txhex scripthex ii st amount pkey =
        (1, [Event.freeTx, Event.errorPrint inputIndexMsg])) := by
  constructor
  · intro hi0 hiv
    have h3 : sizeTCast ii < vinLen := by
      unfold sizeTCast
      omega
    rw [signCmd_after_index O chain txhex scripthex pkey ii st amount vinLen
      h1 h2 h3]
    constructor
    · exact ⟨_, rfl⟩
    · have hmsg : invalidWifMsg ≠ inputIndexMsg := by decide
      by_cases hd : O.decodeWif chain pkey <;> by_cases hs : O.signOk <;>
        by_cases hl : 50 < pkey.length <;>
        simp [hd, hs, hl, signDiag, hmsg, hmsg.symm]
  · intro hbad
    have hge : vinLen ≤ sizeTCast ii := by
      unfold sizeTCast
      rcases hbad with h | h <;> omega
    have h1' : ¬ 1024 * 100 < txhex.length := by omega
    rw [signCmd, h2]
    simp [if_neg h1', if_pos hge]

/-- C5 witness: index 0 of a one-input transaction is accepted and index 5
is rejected. -/
theorem sign_input_index_validation_witness :
    ((∃ rest, (signCmd ⟨fun _ => some 1, fun _ _ => false, true, []⟩
        0 [] [] 0 1 0 []).2 = Event.callSighash 0 1 0 :: rest) ∧
      Event.errorPrint inputIndexMsg ∉
        (signCmd ⟨fun _ => some 1, fun _ _ => false, true, []⟩
          0 [] [] 0 1 0 []).2) ∧
    signCmd ⟨fun _ => some 1, fun _ _ => false, true, []⟩ 0 [] [] 5 1 0 [] =
      (1, [Event.freeTx, Event.errorPrint inputIndexMsg]) := by
  constructor
  · exact (sign_input_index_validation ⟨fun _ => some 1, fun _ _ => false, true, []⟩
      0 [] [] [] 0 1 0 1 (by decide) rfl (by decide) (by decide) (by decide)).1
      (by decide) (by decide)
  · exact (sign_input_index_validation ⟨fun _ => some 1, fun _ _ => false, true, []⟩
      0 [] [] [] 5 1 0 1 (by decide) rfl (by decide) (by decide) (by decide)).2
      (by decide)

/-! ## Claim C2 -/

/-- C2: after the diagnostics, the supplied key string is decoded against
the active network; on success signing proceeds (the signing primitive is
invoked and the run exits successfully); on failure with a key longer
than 50 characters the run releases the transaction and the script and
stops with the invalid-private-key error and exit code 1; on failure with
a key of at most 50 characters the no-signing notice is printed and the
run completes successfully with no signing events in the trace. -/
theorem sign_key_evaluation (O : SignOracle) (chain : Nat)
    (txhex scripthex pkey : List Char) (ii st : Int) (amount vinLen : Nat)
    (h1 : txhex.length ≤ 1024 * 100)
    (h2 : O.deserialize txhex = some vinLen)
    (h3 : sizeTCast ii < vinLen) :
    (O.decodeWif chain pkey = true →
      (signCmd O chain txhex scripthex ii st amount pkey).1 = 0 ∧
      Event.callSignInput amount ii st ∈
        (signCmd O chain txhex scripthex ii st amount pkey).2) ∧
    (O.decodeWif chain pkey = false → 50 < pkey.length →
      signCmd O chain txhex scripthex ii st amount pkey =
        (1, signDiag scripthex ii st ++
          [Event.callDecodeWif chain pkey, Event.freeTx, Event.freeScript,
           Event.errorPrint invalidWifMsg])) ∧
    (O.decodeWif chain pkey = false → pkey.length ≤ 50 →
      signCmd O chain txhex scripthex ii st amount pkey =
        (0, signDiag scripthex ii st ++
          [Event.callDecodeWif chain pkey, Event.noKeyNotice,
           Event.freeTx])) := by
  rw [signCmd_after_index O chain txhex scripthex pkey ii st amount vinLen
    h1 h2 h3]
  refine ⟨fun hd => ?_, fun hd hl => ?_, fun hd hl => ?_⟩
  · constructor
    · simp [hd]
    · by_cases hs : O.signOk <;> simp [hd, hs, signDiag]
  · simp [hd, hl]
  · have hl' : ¬ 50 < pkey.length := by omega
    simp [hd, hl']

/-- C2 witness: an undecodable 51-character key is a hard failure with
resources released. -/
theorem sign_key_evaluation_witness :
    signCmd ⟨fun _ => some 1, fun _ _ => false, true, []⟩ 0 [] []
      0 1 7 (List.replicate 51 'k') =
      (1, signDiag [] 0 1 ++
        [Event.callDecodeWif 0 (List.replicate 51 'k'), Event.freeTx,
         Event.freeScript, Event.errorPrint invalidWifMsg]) :=
  (sign_key_evaluation ⟨fun _ => some 1, fun _ _ => false, true, []⟩ 0 [] []
    (List.replicate 51 'k') 0 1 7 1 (by decide) rfl (by decide)).2.1
    rfl (by decide)

/-! ## Claim C10 -/

/-- C10: the malformed-key boundary is strict: a key of exactly 50
characters that fails to decode takes the no-key path (notice printed,
successful completion), not the invalid-private-key hard failure. -/
theorem sign_key_length_boundary (O : SignOracle) (chain : Nat)
    (txhex scripthex pkey : List Char) (ii st : Int) (amount vinLen : Nat)
    (h1 : txhex.length ≤ 1024 * 100)
    (h2 : O.deserialize txhex = some vinLen)
    (h3 : sizeTCast ii < vinLen)
    (hd : O.decodeWif chain pkey = false)
    (hlen : pkey.length = 50) :
    signCmd O chain txhex scripthex ii st amount pkey =
      (0, signDiag scripthex ii st ++
        [Event.callDecodeWif chain pkey, Event.noKeyNotice, Event.freeTx]) ∧
    Event.errorPrint invalidWifMsg ∉
      (signCmd O chain txhex scripthex ii st amount pkey).2 := by
  rw [signCmd_after_index O chain txhex scripthex pkey ii st amount vinLen
    h1 h2 h3]
  have hl' : ¬ 50 < pkey.length := by omega
  constructor
  · simp [hd, hl']
  · simp [hd, hl', signDiag]

/-- C10 witness: a 50-character undecodable key. -/
theorem sign_key_length_boundary_witness :
    signCmd ⟨fun _ => some 1, fun _ _ => false, true, []⟩ 0 [] []
      0 1 7 (List.replicate 50 'k') =
      (0, signDiag [] 0 1 ++
        [Event.callDecodeWif 0 (List.replicate 50 'k'), Event.noKeyNotice,
         Event.freeTx]) ∧
    Event.errorPrint invalidWifMsg ∉
      (signCmd ⟨fun _ => some 1, fun _ _ => false, true, []⟩ 0 [] []
        0 1 7 (List.replicate 50 'k')).2 :=
  sign_key_length_boundary ⟨fun _ => some 1, fun _ _ => false, true, []⟩ 0 [] []
    (List.replicate 50 'k') 0 1 7 1 (by decide) rfl (by decide) rfl (by decide)

/-! ## Claim C7 -/

/-- C7: with a decoded key and a non-OK result from the signing
primitive, the failure reason is printed but the run is not aborted: the
compact signature, the DER-plus-hashtype signature, and the re-serialized
transaction are still rendered, and the run exits successfully. -/
theorem sign_nonok_nonfatal (O : SignOracle) (chain : Nat)
    (txhex scripthex pkey : List Char) (ii st : Int) (amount vinLen : Nat)
    (h1 : txhex.length ≤ 1024 * 100)
    (h2 : O.deserialize txhex = some vinLen)
    (h3 : sizeTCast ii < vinLen)
    (hd : O.decodeWif chain pkey = true)
    (hs : O.signOk = false) :
    signCmd O chain txhex scripthex ii st amount pkey =
      (0, signDiag scripthex ii st ++
        [Event.callDecodeWif chain pkey, Event.callSignInput amount ii st,
         Event.freeScript, Event.signErrorNotice O.signReason,
         Event.printSigCompact, Event.printSigDer, Event.callSerialize,
         Event.printSignedTx, Event.freeTx]) := by
  rw [signCmd_after_index O chain txhex scripthex pkey ii st amount vinLen
    h1 h2 h3]
  simp [hd, hs]

/-- C7 witness. -/
theorem sign_nonok_nonfatal_witness :
    signCmd ⟨fun _ => some 1, fun _ _ => true, false, ['e']⟩ 0 [] []
      0 1 7 ['k'] =
      (0, signDiag [] 0 1 ++
        [Event.callDecodeWif 0 ['k'], Event.callSignInput 7 0 1,
         Event.freeScript, Event.signErrorNotice ['e'],
         Event.printSigCompact, Event.printSigDer, Event.callSerialize,
         Event.printSignedTx, Event.freeTx]) :=
  sign_nonok_nonfatal ⟨fun _ => some 1, fun _ _ => true, false, ['e']⟩ 0 [] []
    ['k'] 0 1 7 1 (by decide) rfl (by decide) rfl rfl

/-! ## Claim C3 -/

/-- C3 counterexample: with a request amount of 7, the hash-computation
primitive is invoked with amount 0 (and never with 7): the supplied
amount is not passed to it. -/
theorem sign_sighash_amount_cex :
    Event.callSighash 0 1 0 ∈
      (signCmd ⟨fun _ => some 1, fun _ _ => true, true, []⟩ 0 [] []
        0 1 7 []).2 ∧
    Event.callSighash 0 1 7 ∉
      (signCmd ⟨fun _ => some 1, fun _ _ => true, true, []⟩ 0 [] []
        0 1 7 []).2 := by
  constructor <;> decide

/-- C3 (amended): in the HashComputed step the hash primitive is invoked
for the request's script, input index and sighash type, but with the
amount hard-wired to 0 (every hash call in the trace carries amount 0);
the request's amount is passed to the signing primitive instead. -/
theorem sign_sighash_zero_amount (O : SignOracle) (chain : Nat)
    (txhex scripthex pkey : List Char) (ii st : Int) (amount vinLen : Nat)
    (h1 : txhex.length ≤ 1024 * 100)
    (h2 : O.deserialize txhex = some vinLen)
    (h3 : sizeTCast ii < vinLen) :
    Event.callSighash ii st 0 ∈
      (signCmd O chain txhex scripthex ii st amount pkey).2 ∧
    (∀ a, Event.callSighash ii st a ∈
      (signCmd O chain txhex scripthex ii st amount pkey).2 → a = 0) ∧
    (O.decodeWif chain pkey = true →
      Event.callSignInput amount ii st ∈
        (signCmd O chain txhex scripthex ii st amount pkey).2) := by
  rw [signCmd_after_index O chain txhex scripthex pkey ii st amount vinLen
    h1 h2 h3]
  refine ⟨by simp [signDiag], fun a ha => ?_, fun hd => ?_⟩
  · by_cases hd : O.decodeWif chain pkey <;> by_cases hs : O.signOk <;>
      by_cases hl : 50 < pkey.length <;>
      simp [hd, hs, hl, signDiag] at ha <;> omega
  · by_cases hs : O.signOk <;> simp [hd, hs, signDiag]

/-- C3 (amended) witness. -/
theorem sign_sighash_zero_amount_witness :
    Event.callSighash 0 1 0 ∈
      (signCmd ⟨fun _ => some 1, fun _ _ => true, true, []⟩ 0 [] []
        0 1 7 ['k']).2 ∧
    Event.callSignInput 7 0 1 ∈
      (signCmd ⟨fun _ => some 1, fun _ _ => true, true, []⟩ 0 [] []
        0 1 7 ['k']).2 := by
  have h := sign_sighash_zero_amount ⟨fun _ => some 1, fun _ _ => true, true, []⟩
    0 [] [] ['k'] 0 1 7 1 (by decide) rfl (by decide)
  exact ⟨h.1, h.2.2 rfl⟩
